import Mathlib

/-!
Shallow embedding of the social-network influence-optimization program
(`Praducci_simulation.py` and `main.py`) and proofs about its claimed
behaviour.

Modelling conventions:
* Node identifiers are `Nat`.
* A networkx graph is an explicit node list (for isolated nodes added
  without edges) together with an edge list; `nodes` and `neighbors`
  reproduce networkx insertion order and deduplication.
* Python `float` probabilities, weights and costs are modelled as `ℚ`.
* The global pseudo-random stream consumed by `random.random()` is
  modelled as an explicit draw function: each candidate node examined in
  a simulation round consumes exactly one fresh uniform draw, so the
  stream is indexed by round and node (and additionally by trial index
  and candidate-group position where several simulations run in
  sequence).  A Python `dict` is an association list queried by first
  match; a Python `set` of node ids is a deduplicated list.
* Code that can raise (`ZeroDivisionError`, `NetworkXError`,
  `IndexError`) is embedded with an `Option` result, `none` meaning the
  exception propagates to the caller.
-/

namespace Praducci

/-- Node identifiers (Python ints used as user ids). -/
abbrev Node := Nat

/-- A hater map: association list from node id to dampening weight,
modelling the Python dict produced by `read_haters`. -/
abbrev HaterMap := List (Node × ℚ)

/-- Append a node to an accumulator if it is not already present; used to
reproduce networkx insertion order with deduplication. -/
def addNode (acc : List Node) (n : Node) : List Node :=
  if n ∈ acc then acc else acc ++ [n]

/-- A networkx-style undirected graph: explicitly added (possibly
isolated) nodes plus an edge list, as built by `nx.from_pandas_edgelist`
(and `add_node` for isolated nodes). -/
structure Graph where
  isolated : List Node
  edges : List (Node × Node)

/-- `graph.nodes()`: all endpoints of edges together with explicitly
added nodes, in insertion order without duplicates. -/
def Graph.nodes (g : Graph) : List Node :=
  g.edges.foldl (fun acc e => addNode (addNode acc e.1) e.2)
    (g.isolated.foldl addNode [])

/-- `graph.neighbors(v)`: the adjacency list of `v`, in edge insertion
order without duplicates.  A node absent from the graph gets `[]` (in
networkx the call raises instead; call sites that can hit this case are
embedded with an `Option` result). -/
def Graph.neighbors (g : Graph) (v : Node) : List Node :=
  g.edges.foldl (fun acc e =>
    if e.1 = v then addNode acc e.2
    else if e.2 = v then addNode acc e.1
    else acc) []

/-- `n in haters` on the Python dict (membership among keys). -/
def isHater (h : HaterMap) (n : Node) : Bool :=
  h.any (fun p => p.1 == n)

/-- `haters.get(n, 0.0)`: the stored weight, defaulting to `0`. -/
def haterWeight (h : HaterMap) (n : Node) : ℚ :=
  ((h.find? (fun p => p.1 == n)).map (fun p => p.2)).getD 0

/-! ### `simulate_influence` (Praducci_simulation.py, lines 168–240) -/

/-- `set(initial_influencers) - haters_set`: the seeds, deduplicated,
with haters removed. -/
def initialInfluenced (seeds : List Node) (h : HaterMap) : List Node :=
  seeds.dedup.filter (fun s => !isHater h s)

/-- The `anti_influence_product` accumulated over the candidate's
hater-neighbors (lines 216–219). -/
def antiInfluenceProduct (g : Graph) (h : HaterMap) (c : Node) : ℚ :=
  ((g.neighbors c).filter (fun a => isHater h a)).foldl
    (fun acc a => acc * (1 - haterWeight h a)) 1

/-- `influencing_neighbors`: graph neighbors of the candidate that are in
the influenced set as of the start of the round and are not haters
(lines 206–209). -/
def influencingNeighbors (g : Graph) (h : HaterMap) (influenced : List Node) (c : Node) :
    List Node :=
  (g.neighbors c).filter (fun u => decide (u ∈ influenced) && !isHater h u)

/-- `prob_not_infected_by_any`: product over influencing neighbors of
`1 - p_base * anti_influence_product` (lines 223–226). -/
def probNotInfectedByAny (g : Graph) (h : HaterMap) (influenced : List Node) (c : Node)
    (pBase : ℚ) : ℚ :=
  (influencingNeighbors g h influenced c).foldl
    (fun acc _u => acc * (1 - pBase * antiInfluenceProduct g h c)) 1

/-- `prob_infected = 1.0 - prob_not_infected_by_any` (line 230). -/
def probInfected (g : Graph) (h : HaterMap) (influenced : List Node) (c : Node)
    (pBase : ℚ) : ℚ :=
  1 - probNotInfectedByAny g h influenced c pBase

/-- The set of nodes newly infected in one round: every graph node that
is not yet influenced, is not a hater, has at least one influencing
neighbor, and whose uniform draw falls below `prob_infected`
(lines 193–234). -/
def newlyInfluenced (g : Graph) (h : HaterMap) (pBase : ℚ) (influenced : List Node)
    (draw : Node → ℚ) : List Node :=
  g.nodes.filter (fun c =>
    !decide (c ∈ influenced) && !isHater h c &&
    !(influencingNeighbors g h influenced c).isEmpty &&
    decide (draw c < probInfected g h influenced c pBase))

/-- One synchronous simulation round: the newly infected nodes, all
decided against the start-of-round influenced set, are committed only
after the whole round (line 237). -/
def stepRound (g : Graph) (h : HaterMap) (pBase : ℚ) (influenced : List Node)
    (draw : Node → ℚ) : List Node :=
  influenced ++ newlyInfluenced g h pBase influenced draw

/-- The influenced set after `r` rounds; round `r` (0-based) consumes the
draw family `draws r`. -/
def influencedAfter (g : Graph) (h : HaterMap) (pBase : ℚ) (seeds : List Node)
    (draws : Nat → Node → ℚ) : Nat → List Node
  | 0 => initialInfluenced seeds h
  | r + 1 => stepRound g h pBase (influencedAfter g h pBase seeds draws r) (draws r)

/-- `simulate_influence`: returns `0` when any of graph, seeds or haters
is `None` (lines 181–183), otherwise the size of the influenced set
after `rounds` rounds (line 240).  The embedding is a total function:
no exception is raised on the `None` path. -/
def simulate_influence (g? : Option Graph) (seeds? : Option (List Node))
    (h? : Option HaterMap) (pBase : ℚ) (rounds : Nat) (draws : Nat → Node → ℚ) : Nat :=
  match g?, seeds?, h? with
  | some g, some seeds, some h => (influencedAfter g h pBase seeds draws rounds).length
  | _, _, _ => 0

/-! ### Basic lemmas about the graph model -/

theorem mem_addNode {acc : List Node} {n x : Node} :
    x ∈ addNode acc n ↔ x ∈ acc ∨ x = n := by
  unfold addNode
  split
  · constructor
    · exact Or.inl
    · rintro (hx | rfl) <;> [exact hx; assumption]
  · simp [List.mem_append]

theorem mem_nodesFold (l : List (Node × Node)) (init : List Node) (x : Node) :
    x ∈ l.foldl (fun acc e => addNode (addNode acc e.1) e.2) init ↔
      x ∈ init ∨ ∃ e ∈ l, e.1 = x ∨ e.2 = x := by
  induction l generalizing init with
  | nil => simp
  | cons e rest ih =>
    rw [List.foldl_cons, ih]
    simp only [mem_addNode, List.mem_cons]
    constructor
    · rintro (((hx | rfl) | rfl) | ⟨e', he', hend⟩)
      · exact Or.inl hx
      · exact Or.inr ⟨e, Or.inl rfl, Or.inl rfl⟩
      · exact Or.inr ⟨e, Or.inl rfl, Or.inr rfl⟩
      · exact Or.inr ⟨e', Or.inr he', hend⟩
    · rintro (hx | ⟨e', (rfl | he'), hend⟩)
      · exact Or.inl (Or.inl (Or.inl hx))
      · rcases hend with rfl | rfl
        · exact Or.inl (Or.inl (Or.inr rfl))
        · exact Or.inl (Or.inr rfl)
      · exact Or.inr ⟨e', he', hend⟩

theorem Graph.mem_nodes {g : Graph} {x : Node} :
    x ∈ g.nodes ↔ x ∈ g.isolated ∨ ∃ e ∈ g.edges, e.1 = x ∨ e.2 = x := by
  unfold Graph.nodes
  rw [mem_nodesFold]
  have hiso : ∀ (l acc : List Node), x ∈ l.foldl addNode acc ↔ x ∈ acc ∨ x ∈ l := by
    intro l
    induction l with
    | nil => simp
    | cons a rest ih =>
      intro acc
      rw [List.foldl_cons, ih, mem_addNode]
      simp only [List.mem_cons]
      tauto
  rw [hiso]
  simp

theorem neighborsFold_endpoint {c : Node} (l : List (Node × Node)) (acc : List Node)
    (u : Node) :
    u ∈ l.foldl (fun acc e =>
      if e.1 = c then addNode acc e.2
      else if e.2 = c then addNode acc e.1
      else acc) acc →
    u ∈ acc ∨ ∃ e ∈ l, e.1 = c ∨ e.2 = c := by
  induction l generalizing acc with
  | nil => simp
  | cons e rest ih =>
    intro hu
    rw [List.foldl_cons] at hu
    by_cases h1 : e.1 = c
    · exact Or.inr ⟨e, List.mem_cons_self e rest, Or.inl h1⟩
    · by_cases h2 : e.2 = c
      · exact Or.inr ⟨e, List.mem_cons_self e rest, Or.inr h2⟩
      · simp only [h1, h2, if_false] at hu
        rcases ih acc hu with hacc | ⟨e', he', hend⟩
        · exact Or.inl hacc
        · exact Or.inr ⟨e', List.mem_cons_of_mem e he', hend⟩

/-- A node with a nonempty adjacency list is a node of the graph. -/
theorem mem_nodes_of_mem_neighbors {g : Graph} {c u : Node} (hu : u ∈ g.neighbors c) :
    c ∈ g.nodes := by
  rcases neighborsFold_endpoint g.edges [] u hu with hacc | ⟨e, he, hend⟩
  · simp at hacc
  · exact Graph.mem_nodes.2 (Or.inr ⟨e, he, by tauto⟩)

/-! ### Generic fold lemmas -/

theorem foldl_mul_eq_prod {α : Type} (f : α → ℚ) :
    ∀ (l : List α) (x : ℚ), l.foldl (fun acc a => acc * f a) x = x * (l.map f).prod := by
  intro l
  induction l with
  | nil => intro x; simp
  | cons a rest ih =>
    intro x
    rw [List.foldl_cons, ih, List.map_cons, List.prod_cons, mul_assoc]

/-! ### Simulator invariant lemmas -/

theorem mem_stepRound_of_mem {g : Graph} {h : HaterMap} {pBase : ℚ} {influenced : List Node}
    {draw : Node → ℚ} {x : Node} (hx : x ∈ influenced) :
    x ∈ stepRound g h pBase influenced draw :=
  List.mem_append_left _ hx

theorem mem_influencedAfter_succ {g : Graph} {h : HaterMap} {pBase : ℚ} {seeds : List Node}
    {draws : Nat → Node → ℚ} {r : Nat} {x : Node}
    (hx : x ∈ influencedAfter g h pBase seeds draws r) :
    x ∈ influencedAfter g h pBase seeds draws (r + 1) :=
  mem_stepRound_of_mem hx

theorem mem_influencedAfter_of_le {g : Graph} {h : HaterMap} {pBase : ℚ} {seeds : List Node}
    {draws : Nat → Node → ℚ} {r r' : Nat} (hrr : r ≤ r') {x : Node}
    (hx : x ∈ influencedAfter g h pBase seeds draws r) :
    x ∈ influencedAfter g h pBase seeds draws r' := by
  induction r' with
  | zero =>
    have : r = 0 := by omega
    subst this; exact hx
  | succ n ih =>
    rcases Nat.lt_or_ge r (n + 1) with hlt | hge
    · exact mem_influencedAfter_succ (ih (by omega))
    · have : r = n + 1 := by omega
      subst this; exact hx

theorem not_hater_of_mem_influencedAfter {g : Graph} {h : HaterMap} {pBase : ℚ}
    {seeds : List Node} {draws : Nat → Node → ℚ} :
    ∀ {r : Nat} {x : Node}, x ∈ influencedAfter g h pBase seeds draws r →
      isHater h x = false := by
  intro r
  induction r with
  | zero =>
    intro x hx
    have := List.of_mem_filter hx
    simpa using this
  | succ n ih =>
    intro x hx
    rcases List.mem_append.1 hx with hold | hnew
    · exact ih hold
    · have := List.of_mem_filter hnew
      simp only [Bool.and_eq_true, Bool.not_eq_true'] at this
      exact this.1.1.2

theorem length_influencedAfter_mono {g : Graph} {h : HaterMap} {pBase : ℚ}
    {seeds : List Node} {draws : Nat → Node → ℚ} (r : Nat) :
    (influencedAfter g h pBase seeds draws 0).length ≤
      (influencedAfter g h pBase seeds draws r).length := by
  induction r with
  | zero => exact Nat.le_refl _
  | succ n ih =>
    refine Nat.le_trans ih ?_
    show _ ≤ (stepRound g h pBase _ _).length
    rw [stepRound, List.length_append]
    omega

/-- If the seed list is empty the influenced set stays empty forever:
no candidate can have an influencing neighbor. -/
theorem influencedAfter_nil_seeds {g : Graph} {h : HaterMap} {pBase : ℚ}
    {draws : Nat → Node → ℚ} (r : Nat) :
    influencedAfter g h pBase [] draws r = [] := by
  induction r with
  | zero => rfl
  | succ n ih =>
    show stepRound g h pBase _ _ = []
    rw [ih, stepRound, newlyInfluenced, List.nil_append]
    apply List.filter_eq_nil_iff.2
    intro c _hc
    simp [influencingNeighbors]

theorem antiInfluenceProduct_eq_prod (g : Graph) (h : HaterMap) (c : Node) :
    antiInfluenceProduct g h c =
      (((g.neighbors c).filter (fun a => isHater h a)).map (fun a => 1 - haterWeight h a)).prod := by
  rw [antiInfluenceProduct, foldl_mul_eq_prod, one_mul]

theorem probInfected_eq (g : Graph) (h : HaterMap) (influenced : List Node) (c : Node)
    (pBase : ℚ) :
    probInfected g h influenced c pBase =
      1 - ((influencingNeighbors g h influenced c).map
        (fun _u => 1 - pBase *
          (((g.neighbors c).filter (fun a => isHater h a)).map
            (fun a => 1 - haterWeight h a)).prod)).prod := by
  rw [probInfected, probNotInfectedByAny, foldl_mul_eq_prod, one_mul,
    antiInfluenceProduct_eq_prod]

/-- C1.  In every simulation round of `simulate_influence`, a node `c`
that is not yet influenced, is not a hater, and has at least one
influencing neighbor becomes newly influenced exactly when its one
uniform draw for this round falls below
`1 - ∏ over influencing neighbors of (1 - pBase * A)`, where
`A = ∏ over c's hater-neighbors of (1 - haterWeight)` is the same factor
for every influencing neighbor; the influencing neighbors are computed
from the influenced set as of the start of the round, and the newly
infected nodes are appended to the influenced set only after the whole
round (`influencedAfter (r+1) = influencedAfter r ++ newly infected`). -/
theorem round_infection_probability (g : Graph) (h : HaterMap) (pBase : ℚ)
    (seeds : List Node) (draws : Nat → Node → ℚ) (r : Nat) (c : Node)
    (hnot : c ∉ influencedAfter g h pBase seeds draws r)
    (hhat : isHater h c = false)
    (hinf : influencingNeighbors g h (influencedAfter g h pBase seeds draws r) c ≠ []) :
    (c ∈ influencedAfter g h pBase seeds draws (r + 1) ↔
      draws r c < 1 - ((influencingNeighbors g h (influencedAfter g h pBase seeds draws r) c).map
        (fun _u => 1 - pBase *
          (((g.neighbors c).filter (fun a => isHater h a)).map
            (fun a => 1 - haterWeight h a)).prod)).prod) ∧
    influencedAfter g h pBase seeds draws (r + 1) =
      influencedAfter g h pBase seeds draws r ++
        newlyInfluenced g h pBase (influencedAfter g h pBase seeds draws r) (draws r) := by
  constructor
  · set infl := influencedAfter g h pBase seeds draws r with hinfl
    have hcnodes : c ∈ g.nodes := by
      rcases List.exists_mem_of_ne_nil _ hinf with ⟨u, hu⟩
      exact mem_nodes_of_mem_neighbors (List.mem_of_mem_filter hu)
    show c ∈ stepRound g h pBase infl (draws r) ↔ _
    rw [stepRound, List.mem_append]
    rw [← probInfected_eq]
    constructor
    · rintro (hold | hnew)
      · exact absurd hold hnot
      · have := List.of_mem_filter hnew
        simp only [Bool.and_eq_true, decide_eq_true_eq] at this
        exact this.2
    · intro hlt
      refine Or.inr (List.mem_filter.2 ⟨hcnodes, ?_⟩)
      have h1 : decide (c ∈ infl) = false := decide_eq_false hnot
      have h2 : (influencingNeighbors g h infl c).isEmpty = false := by
        cases hl : influencingNeighbors g h infl c with
        | nil => exact absurd hl hinf
        | cons a t => rfl
      have h3 : decide (draws r c < probInfected g h infl c pBase) = true :=
        decide_eq_true hlt
      simp [h1, h2, h3, hhat]
  · rfl

/-! ### Concrete fixtures used by witnesses and counterexamples -/

/-- A 3-node path `1 – 2 – 3`. -/
def G1 : Graph := ⟨[], [(1, 2), (2, 3)]⟩

/-- One hater, node `3`, with weight `1/2`. -/
def H1 : HaterMap := [(3, 1/2)]

/-- A draw family returning `0` on every round and node. -/
def D0 : Nat → Node → ℚ := fun _ _ => 0

/-- A graph with no nodes and no edges (non-None but empty). -/
def emptyGraph : Graph := ⟨[], []⟩

/-- Witness for C1: the concrete node `2` of the path `1 – 2 – 3`, seeded
from `1`, in round `0`. -/
theorem round_infection_probability_witness :
    ((2 : Node) ∈ influencedAfter G1 H1 (1/2) [1] D0 1 ↔
      D0 0 2 < 1 - ((influencingNeighbors G1 H1 (influencedAfter G1 H1 (1/2) [1] D0 0) 2).map
        (fun _u => 1 - (1/2) *
          (((G1.neighbors 2).filter (fun a => isHater H1 a)).map
            (fun a => 1 - haterWeight H1 a)).prod)).prod) ∧
    influencedAfter G1 H1 (1/2) [1] D0 1 =
      influencedAfter G1 H1 (1/2) [1] D0 0 ++
        newlyInfluenced G1 H1 (1/2) (influencedAfter G1 H1 (1/2) [1] D0 0) (D0 0) :=
  round_infection_probability G1 H1 (1/2) [1] D0 0 2 (by decide) (by decide) (by decide)

/-- C2.  For every simulation run with non-None graph, seed list and
hater map (the branch of `simulate_influence` that iterates rounds via
`influencedAfter`), the influenced set never loses a member from one
round to the next, and at no point — initially or after any round —
does it contain a hater. -/
theorem influenced_monotone_and_hater_free (g : Graph) (seeds : List Node) (h : HaterMap)
    (pBase : ℚ) (draws : Nat → Node → ℚ) :
    (∀ r : Nat, ∀ x ∈ influencedAfter g h pBase seeds draws r,
        x ∈ influencedAfter g h pBase seeds draws (r + 1)) ∧
    (∀ r : Nat, ∀ x ∈ influencedAfter g h pBase seeds draws r, isHater h x = false) :=
  ⟨fun _r _x hx => mem_influencedAfter_succ hx,
   fun _r _x hx => not_hater_of_mem_influencedAfter hx⟩

/-- Witness for C2 at the path fixture: seed `1` stays influenced after
round one and is not a hater. -/
theorem influenced_monotone_and_hater_free_witness :
    (1 : Node) ∈ influencedAfter G1 H1 (1/2) [1] D0 1 ∧ isHater H1 1 = false :=
  ⟨(influenced_monotone_and_hater_free G1 [1] H1 (1/2) D0).1 0 1 (by decide),
   (influenced_monotone_and_hater_free G1 [1] H1 (1/2) D0).2 0 1 (by decide)⟩

/-- C3 counterexample: with an empty (but non-None) graph, an empty (but
non-None) hater map, and the non-empty seed list `[1]`, the returned
count is `1`, not `0` — the code only short-circuits on `None`, not on
empty inputs. -/
theorem empty_graph_empty_haters_nonzero_count :
    simulate_influence (some emptyGraph) (some [1]) (some []) (1/2) 3 D0 ≠ 0 := by
  decide

/-- C3 (amended).  When the graph, the seed collection, or the hater map
is `None`, `simulate_influence` returns a count of zero as an ordinary
return value (the embedding is total, so no exception is raised); an
empty seed list also always yields zero.  An empty-but-present graph or
hater map does not in general yield zero. -/
theorem none_inputs_or_empty_seeds_zero_count (g? : Option Graph)
    (seeds? : Option (List Node)) (h? : Option HaterMap) (pBase : ℚ) (rounds : Nat)
    (draws : Nat → Node → ℚ) :
    ((g? = none ∨ seeds? = none ∨ h? = none) →
      simulate_influence g? seeds? h? pBase rounds draws = 0) ∧
    (∀ (g : Graph) (h : HaterMap),
      simulate_influence (some g) (some []) (some h) pBase rounds draws = 0) := by
  constructor
  · intro hc
    match g?, seeds?, h?, hc with
    | none, _, _, _ => rfl
    | some _, none, _, _ => rfl
    | some _, some _, none, _ => rfl
    | some _, some _, some _, hc => simp at hc
  · intro g h
    show (influencedAfter g h pBase [] draws rounds).length = 0
    rw [influencedAfter_nil_seeds]
    rfl

/-- Witness for C3 (amended): a `None` graph yields zero, and an empty
seed list on the path fixture yields zero. -/
theorem none_inputs_or_empty_seeds_zero_count_witness :
    simulate_influence none (some [1]) (some H1) (1/2) 2 D0 = 0 ∧
    simulate_influence (some G1) (some []) (some H1) (1/2) 2 D0 = 0 :=
  ⟨(none_inputs_or_empty_seeds_zero_count none (some [1]) (some H1) (1/2) 2 D0).1
      (Or.inl rfl),
   (none_inputs_or_empty_seeds_zero_count (some G1) (some []) (some H1) (1/2) 2 D0).2 G1 H1⟩

/-- C10.  With non-None graph, seeds and haters, the returned count is at
least `|set(seeds) - haters|` for every `pBase` and `rounds`, and every
non-hater seed — whether or not it occurs as a node of the graph — is
still a member of the final influenced set, hence counted. -/
theorem simulate_count_ge_nonhater_seeds (g : Graph) (seeds : List Node) (h : HaterMap)
    (pBase : ℚ) (rounds : Nat) (draws : Nat → Node → ℚ) :
    (initialInfluenced seeds h).length ≤
      simulate_influence (some g) (some seeds) (some h) pBase rounds draws ∧
    (∀ s ∈ seeds, isHater h s = false →
      s ∈ influencedAfter g h pBase seeds draws rounds) := by
  constructor
  · exact length_influencedAfter_mono rounds
  · intro s hs hnh
    have h0 : s ∈ influencedAfter g h pBase seeds draws 0 := by
      apply List.mem_filter.2
      exact ⟨List.mem_dedup.2 hs, by simp [hnh]⟩
    exact mem_influencedAfter_of_le (Nat.zero_le _) h0

/-- Witness for C10: seed `7` does not occur in the path graph `G1`, yet
it is influenced after two rounds, and the count is at least the number
of distinct non-hater seeds. -/
theorem simulate_count_ge_nonhater_seeds_witness :
    (initialInfluenced [1, 7] H1).length ≤
      simulate_influence (some G1) (some [1, 7]) (some H1) (1/2) 2 D0 ∧
    (7 : Node) ∈ influencedAfter G1 H1 (1/2) [1, 7] D0 2 :=
  ⟨(simulate_count_ge_nonhater_seeds G1 [1, 7] H1 (1/2) 2 D0).1,
   (simulate_count_ge_nonhater_seeds G1 [1, 7] H1 (1/2) 2 D0).2 7 (by decide) (by decide)⟩

/-! ### `main.py`: influence scoring (lines 11–74) -/

/-- `set_value(list, index, value)`: pad the positional score list with
zeros up to `index`, then write `value` at `index` (main.py lines 11–14,
embedded functionally). -/
def set_value (l : List ℚ) (index : Nat) (value : ℚ) : List ℚ :=
  (if l.length ≤ index then l ++ List.replicate (index + 1 - l.length) 0 else l).set index value

/-- `find_P_u_v(graph, haters, P_BASE, u, v)`: starting from `P_BASE`,
multiply by `1 - haters[friend]` for every hater among `v`'s neighbors
(main.py lines 56–62; the argument `u` is not used by the source
either). -/
def find_P_u_v (g : Graph) (h : HaterMap) (pBase : ℚ) (u v : Node) : ℚ :=
  (g.neighbors v).foldl
    (fun acc friend => if isHater h friend then acc * (1 - haterWeight h friend) else acc)
    pBase

/-- Loop body of `find_average_influence` over the candidate list.
`none` models an exception escaping the loop: for a candidate with an
empty adjacency list the source divides by `len(friends) = 0`
(`ZeroDivisionError`); a candidate absent from the graph raises inside
`graph.neighbors` — in this model such a node also has `[]` neighbors,
so both failure modes map to `none`. -/
def findAverageInfluenceGo (g : Graph) (h : HaterMap) (pBase : ℚ) :
    List Node → List ℚ → Option (List ℚ)
  | [], acc => some acc
  | u :: rest, acc =>
    if (g.neighbors u).isEmpty then none
    else
      findAverageInfluenceGo g h pBase rest
        (set_value acc u
          (((g.neighbors u).foldl (fun s friend => s + find_P_u_v g h pBase u friend) 0) /
            (g.neighbors u).length))

/-- `find_average_influence(graph, haters, costs, P_BASE)` (main.py
lines 66–74): positional list of per-candidate average one-hop
influence; `none` when the loop raises. -/
def find_average_influence (g : Graph) (h : HaterMap) (costs : List Node) (pBase : ℚ) :
    Option (List ℚ) :=
  findAverageInfluenceGo g h pBase costs []

/-- C8.  The influence-scoring stage does NOT guard the division by the
neighbor count: on a candidate node with zero graph neighbors (here the
isolated node `5`) the loop fails (`ZeroDivisionError` in the source,
`none` in this embedding) instead of assigning score `0`. -/
theorem find_average_influence_unguarded_division :
    find_average_influence ⟨[5], []⟩ [] [5] (1/5) = none := by
  decide

/-! ### `main.py`: `find_top_group` (lines 77–80) -/

/-- Score of index `i` in the positional score list (out-of-range reads
score `0`; `np.argsort` only ever touches valid indices). -/
def scoreAt (scores : List ℚ) (i : Nat) : ℚ := scores.getD i 0

/-- The comparison `np.argsort` sorts indices by: ascending score, with
equal scores ordered by index.  On distinct indices this is a linear
order, so it pins down the sort output uniquely; on ties it matches the
stable order numpy's small-array insertion sort produces. -/
def idxLE (scores : List ℚ) (i j : Nat) : Prop :=
  scoreAt scores i < scoreAt scores j ∨ (scoreAt scores i = scoreAt scores j ∧ i ≤ j)

instance (scores : List ℚ) : DecidableRel (idxLE scores) := fun i j => by
  unfold idxLE
  infer_instance

instance (scores : List ℚ) : IsTotal Nat (idxLE scores) where
  total i j := by
    unfold idxLE
    rcases lt_trichotomy (scoreAt scores i) (scoreAt scores j) with hlt | heq | hgt
    · exact Or.inl (Or.inl hlt)
    · rcases Nat.le_total i j with hij | hji
      · exact Or.inl (Or.inr ⟨heq, hij⟩)
      · exact Or.inr (Or.inr ⟨heq.symm, hji⟩)
    · exact Or.inr (Or.inl hgt)

instance (scores : List ℚ) : IsTrans Nat (idxLE scores) where
  trans i j k hij hjk := by
    unfold idxLE at *
    rcases hij with hij | ⟨hije, hijle⟩ <;> rcases hjk with hjk | ⟨hjke, hjkle⟩
    · exact Or.inl (hij.trans hjk)
    · exact Or.inl (hjke ▸ hij)
    · exact Or.inl (hije ▸ hjk)
    · exact Or.inr ⟨hije.trans hjke, hijle.trans hjkle⟩

/-- `np.argsort(scores)`: the indices `0 .. len-1` sorted ascending by
score (ties by index). -/
def argsortAsc (scores : List ℚ) : List Nat :=
  List.insertionSort (idxLE scores) (List.range scores.length)

/-- The Python slice `a[-k:]`: the last `k` elements for `k ≥ 1`
(clamped to the whole list when `k > len`), and the WHOLE list for
`k = 0` (since `a[-0:] = a[0:]`). -/
def tailSlice (k : Nat) (l : List Nat) : List Nat :=
  if k = 0 then l else l.drop (l.length - k)

/-- `find_top_group(size, list_average_influence)` (main.py lines 77–80):
`argsort`, keep the slice `[-size:]`, reverse it. -/
def find_top_group (size : Nat) (scores : List ℚ) : List Nat :=
  (tailSlice size (argsortAsc scores)).reverse

/-- C9 counterexample: on the two-way tie `[5, 5]` with `size = 2`,
`find_top_group` returns `[1, 0]` — equal scores come out in REVERSE
original iteration order (the ascending argsort is reversed), not in
original order `[0, 1]` as the claim states. -/
theorem find_top_group_reversed_ties :
    find_top_group 2 [5, 5] = [1, 0] ∧ find_top_group 2 [5, 5] ≠ [0, 1] := by
  have h : find_top_group 2 [5, 5] = [1, 0] := by
    have hr : List.range ([(5 : ℚ), 5].length) = [0, 1] := by decide
    have hle : idxLE [5, 5] 0 1 := Or.inr ⟨rfl, by omega⟩
    simp [find_top_group, argsortAsc, tailSlice, hr, List.insertionSort,
      List.orderedInsert, if_pos hle]
  exact ⟨h, by rw [h]; decide⟩

/-- C9 (amended).  `find_top_group size scores` returns indices of the
score table ordered by score, highest first, with ties between equal
scores broken by REVERSE original iteration order; it returns the
`size` highest-ranked indices when `size ≥ 1`, but returns ALL indices
when `size = 0` (the Python slice `[-0:]` is the whole list).  Every
returned index is in range, and every index left out ranks no higher
than every index returned. -/
theorem find_top_group_order_spec (size : Nat) (scores : List ℚ) :
    (1 ≤ size → (find_top_group size scores).length = min size scores.length) ∧
    (size = 0 → (find_top_group size scores).length = scores.length) ∧
    (find_top_group size scores).Pairwise (fun i j => idxLE scores j i) ∧
    (∀ i ∈ find_top_group size scores, i < scores.length) ∧
    (∀ i ∈ find_top_group size scores, ∀ j : Nat, j < scores.length →
      j ∉ find_top_group size scores → idxLE scores j i) := by
  have hL : (argsortAsc scores).length = scores.length := by
    rw [argsortAsc, List.length_insertionSort, List.length_range]
  have hsort : (argsortAsc scores).Pairwise (idxLE scores) :=
    List.sorted_insertionSort (idxLE scores) (List.range scores.length)
  have hmem : ∀ {i : Nat}, i ∈ argsortAsc scores ↔ i < scores.length := by
    intro i
    rw [argsortAsc, List.mem_insertionSort, List.mem_range]
  have hsub : (tailSlice size (argsortAsc scores)).Sublist (argsortAsc scores) := by
    rw [tailSlice]
    split
    · exact List.Sublist.refl _
    · exact List.drop_sublist _ _
  refine ⟨?_, ?_, ?_, ?_, ?_⟩
  · intro hsz
    rw [find_top_group, List.length_reverse, tailSlice, if_neg (by omega),
      List.length_drop, hL]
    omega
  · intro hsz
    subst hsz
    rw [find_top_group, List.length_reverse, tailSlice, if_pos rfl, hL]
  · rw [find_top_group, List.pairwise_reverse]
    exact hsort.sublist hsub
  · intro i hi
    rw [find_top_group, List.mem_reverse] at hi
    exact hmem.1 (hsub.mem hi)
  · intro i hi j hj hjnot
    rw [find_top_group, List.mem_reverse] at hi hjnot
    rcases Nat.eq_zero_or_pos size with hsz | hsz
    · subst hsz
      rw [tailSlice, if_pos rfl] at hjnot
      exact absurd (hmem.2 hj) hjnot
    · rw [tailSlice, if_neg (by omega)] at hi hjnot
      have hjL : j ∈ argsortAsc scores := hmem.2 hj
      have hsplit := List.take_append_drop ((argsortAsc scores).length - size)
        (argsortAsc scores)
      have hsort' : (List.take ((argsortAsc scores).length - size) (argsortAsc scores) ++
          List.drop ((argsortAsc scores).length - size) (argsortAsc scores)).Pairwise
          (idxLE scores) := by
        rw [hsplit]; exact hsort
      have hjtake : j ∈ List.take ((argsortAsc scores).length - size) (argsortAsc scores) := by
        rcases List.mem_append.1 (by rw [hsplit]; exact hjL) with hjt | hjd
        · exact hjt
        · exact absurd hjd hjnot
      exact (List.pairwise_append.1 hsort').2.2 j hjtake i hi

/-- Witness for C9 (amended) on scores `[1, 2]` with `size = 1`: the
returned group has length `min 1 2`, and the omitted index `0` ranks no
higher than the returned index `1`. -/
theorem find_top_group_order_spec_witness :
    (find_top_group 1 [1, 2]).length = min 1 2 ∧ idxLE [1, 2] 0 1 := by
  have hval : find_top_group 1 [1, 2] = [1] := by
    have hr : List.range ([(1 : ℚ), 2].length) = [0, 1] := by decide
    have hle : idxLE [1, 2] 0 1 := by
      unfold idxLE scoreAt
      norm_num
    simp [find_top_group, argsortAsc, tailSlice, hr, List.insertionSort,
      List.orderedInsert, if_pos hle]
  refine ⟨(find_top_group_order_spec 1 [1, 2]).1 (by omega), ?_⟩
  exact (find_top_group_order_spec 1 [1, 2]).2.2.2.2 1 (by rw [hval]; exact List.mem_singleton.2 rfl)
    0 (by simp) (by rw [hval]; decide)

/-! ### `main.py`: `sampled_possible_groups` (lines 111–131) -/

/-- Python `sorted(group)` on node ids: ascending insertion sort. -/
def sortedAsc (l : List Node) : List Node :=
  List.insertionSort (fun a b : Node => a ≤ b) l

/-- One sampling attempt: walk the shuffled pool, greedily accumulating
nodes while `total + cost ≤ budget`; as soon as `total == budget`
exactly, accept the canonicalized (sorted) group and stop.  `none` means
the walk ended without an exact budget match, so this attempt
contributes nothing (main.py lines 119–129). -/
def greedyDraw (costs : Node → ℚ) (budget : ℚ) :
    List Node → List Node → ℚ → Option (List Node)
  | [], _group, _total => none
  | node :: rest, group, total =>
    if total + costs node ≤ budget then
      if total + costs node = budget then some (sortedAsc (group ++ [node]))
      else greedyDraw costs budget rest (group ++ [node]) (total + costs node)
    else
      if total = budget then some (sortedAsc group)
      else greedyDraw costs budget rest group total

/-- The `while` loop of `sampled_possible_groups`, with the attempt
budget as structural fuel; `shuffles i` is the content of the (shuffled
in place) candidate pool on attempt `i`, and `valid_samples` is kept as
an insertion-ordered duplicate-free list.  Returns the collected groups
and the number of attempts performed (main.py lines 113–129). -/
def sampleLoop (shuffles : Nat → List Node) (costs : Node → ℚ) (budget : ℚ)
    (numSamples : Nat) : Nat → Nat → List (List Node) → List (List Node) × Nat
  | 0, attempts, acc => (acc, attempts)
  | fuel + 1, attempts, acc =>
    if acc.length < numSamples then
      sampleLoop shuffles costs budget numSamples fuel (attempts + 1)
        (match greedyDraw costs budget (shuffles attempts) [] 0 with
         | some gp => if gp ∈ acc then acc else acc ++ [gp]
         | none => acc)
    else (acc, attempts)

/-- `sampled_possible_groups(initial_group, costs, budget, num_samples)`
(main.py lines 111–131): run the sampling loop with the attempt cap
`num_samples * 100` and return the collected groups.  The cost map is
embedded as its lookup function (the claims presuppose every pool node
has a cost entry, so `costs[node]` never raises). -/
def sampled_possible_groups (shuffles : Nat → List Node) (costs : Node → ℚ) (budget : ℚ)
    (numSamples : Nat) : List (List Node) :=
  (sampleLoop shuffles costs budget numSamples (numSamples * 100) 0 []).1

theorem sortedAsc_pairwise (l : List Node) : (sortedAsc l).Pairwise (fun a b : Node => a ≤ b) :=
  List.sorted_insertionSort _ l

theorem sortedAsc_perm (l : List Node) : (sortedAsc l).Perm l :=
  List.perm_insertionSort _ l

/-- Every group accepted by a single greedy attempt is sorted,
duplicate-free, drawn from the walked pool, and costs exactly the
budget. -/
theorem greedyDraw_spec (costs : Node → ℚ) (budget : ℚ) :
    ∀ (order group : List Node) (total : ℚ) (out : List Node),
      (group ++ order).Nodup → total = (group.map costs).sum →
      greedyDraw costs budget order group total = some out →
      out.Pairwise (fun a b : Node => a ≤ b) ∧ out.Nodup ∧
        (∀ x ∈ out, x ∈ group ∨ x ∈ order) ∧ (out.map costs).sum = budget := by
  intro order
  induction order with
  | nil =>
    intro group total out _ _ heq
    simp [greedyDraw] at heq
  | cons node rest ih =>
    intro group total out hnd htot heq
    rw [greedyDraw] at heq
    by_cases h1 : total + costs node ≤ budget
    · rw [if_pos h1] at heq
      by_cases h2 : total + costs node = budget
      · rw [if_pos h2] at heq
        have hout : out = sortedAsc (group ++ [node]) := (Option.some.inj heq).symm
        have hgnd : (group ++ [node]).Nodup := by
          rw [List.append_cons] at hnd
          exact (List.sublist_append_left _ _).nodup hnd
        subst hout
        refine ⟨sortedAsc_pairwise _, ((sortedAsc_perm _).symm).nodup hgnd, ?_, ?_⟩
        · intro x hx
          rcases List.mem_append.1 ((sortedAsc_perm _).subset hx) with hg | hn
          · exact Or.inl hg
          · simp at hn
            exact Or.inr (by simp [hn])
        · rw [List.Perm.sum_eq ((sortedAsc_perm _).map costs)]
          simp [htot] at h2
          simpa using h2
      · rw [if_neg h2] at heq
        have hnd' : ((group ++ [node]) ++ rest).Nodup := by
          rwa [List.append_cons] at hnd
        have htot' : total + costs node = ((group ++ [node]).map costs).sum := by
          simp [htot]
        rcases ih (group ++ [node]) (total + costs node) out hnd' htot' heq with
          ⟨hs, hn, hm, hb⟩
        refine ⟨hs, hn, ?_, hb⟩
        intro x hx
        rcases hm x hx with hg | hr
        · rcases List.mem_append.1 hg with hg' | hn'
          · exact Or.inl hg'
          · exact Or.inr (by simp at hn'; simp [hn'])
        · exact Or.inr (List.mem_cons_of_mem node hr)
    · rw [if_neg h1] at heq
      by_cases h3 : total = budget
      · rw [if_pos h3] at heq
        have hout : out = sortedAsc group := (Option.some.inj heq).symm
        have hgnd : group.Nodup := (List.sublist_append_left _ _).nodup hnd
        subst hout
        refine ⟨sortedAsc_pairwise _, ((sortedAsc_perm _).symm).nodup hgnd, ?_, ?_⟩
        · intro x hx
          exact Or.inl ((sortedAsc_perm _).subset hx)
        · rw [List.Perm.sum_eq ((sortedAsc_perm _).map costs)]
          rw [← htot, h3]
      · rw [if_neg h3] at heq
        have hnd' : (group ++ rest).Nodup :=
          (List.Sublist.append_left (List.sublist_cons_self node rest) group).nodup hnd
        rcases ih group total out hnd' htot heq with ⟨hs, hn, hm, hb⟩
        refine ⟨hs, hn, ?_, hb⟩
        intro x hx
        rcases hm x hx with hg | hr
        · exact Or.inl hg
        · exact Or.inr (List.mem_cons_of_mem node hr)

/-- The sampling loop preserves any property of accepted draws, and
keeps the collected pool duplicate-free. -/
theorem sampleLoop_acc_inv (shuffles : Nat → List Node) (costs : Node → ℚ) (budget : ℚ)
    (numSamples : Nat) (P : List Node → Prop)
    (hdraw : ∀ (i : Nat) (gp : List Node),
      greedyDraw costs budget (shuffles i) [] 0 = some gp → P gp) :
    ∀ (fuel attempts : Nat) (acc : List (List Node)),
      (∀ gp ∈ acc, P gp) → acc.Nodup →
      (∀ gp ∈ (sampleLoop shuffles costs budget numSamples fuel attempts acc).1, P gp) ∧
      (sampleLoop shuffles costs budget numSamples fuel attempts acc).1.Nodup := by
  intro fuel
  induction fuel with
  | zero =>
    intro attempts acc hP hnd
    exact ⟨hP, hnd⟩
  | succ n ih =>
    intro attempts acc hP hnd
    rw [sampleLoop]
    split
    · cases heq : greedyDraw costs budget (shuffles attempts) [] 0 with
      | none => simpa [heq] using ih (attempts + 1) acc hP hnd
      | some gp =>
        by_cases hmem : gp ∈ acc
        · simpa [heq, hmem] using ih (attempts + 1) acc hP hnd
        · have hP' : ∀ q ∈ acc ++ [gp], P q := by
            intro q hq
            rcases List.mem_append.1 hq with hq | hq
            · exact hP q hq
            · simp at hq
              exact hq ▸ hdraw attempts gp heq
          have hnd' : (acc ++ [gp]).Nodup := by
            rw [List.nodup_append]
            exact ⟨hnd, List.nodup_singleton gp, by simpa using hmem⟩
          simpa [heq, hmem] using ih (attempts + 1) (acc ++ [gp]) hP' hnd'
    · exact ⟨hP, hnd⟩

/-- Attempt accounting for the sampling loop. -/
theorem sampleLoop_count (shuffles : Nat → List Node) (costs : Node → ℚ) (budget : ℚ)
    (numSamples : Nat) :
    ∀ (fuel attempts : Nat) (acc : List (List Node)), acc.length ≤ numSamples →
      (sampleLoop shuffles costs budget numSamples fuel attempts acc).2 ≤ attempts + fuel ∧
      (sampleLoop shuffles costs budget numSamples fuel attempts acc).1.length ≤ numSamples ∧
      ((sampleLoop shuffles costs budget numSamples fuel attempts acc).1.length < numSamples →
        (sampleLoop shuffles costs budget numSamples fuel attempts acc).2 = attempts + fuel) := by
  intro fuel
  induction fuel with
  | zero =>
    intro attempts acc hlen
    exact ⟨Nat.le_refl _, hlen, fun _ => rfl⟩
  | succ n ih =>
    intro attempts acc hlen
    by_cases hlt : acc.length < numSamples
    · rw [sampleLoop, if_pos hlt]
      have hlen' : (match greedyDraw costs budget (shuffles attempts) [] 0 with
          | some gp => if gp ∈ acc then acc else acc ++ [gp]
          | none => acc).length ≤ numSamples := by
        cases heq : greedyDraw costs budget (shuffles attempts) [] 0 with
        | none => simpa using Nat.le_of_lt hlt
        | some gp =>
          by_cases hmem : gp ∈ acc
          · simpa [hmem] using Nat.le_of_lt hlt
          · simp [hmem]
            omega
      rcases ih (attempts + 1) _ hlen' with ⟨ha, hb, hc⟩
      refine ⟨by omega, hb, ?_⟩
      intro hsmall
      rw [hc hsmall]
      omega
    · rw [sampleLoop, if_neg hlt]
      exact ⟨Nat.le_add_right _ _, hlen, fun hsmall => absurd hsmall hlt⟩

/-- C5.  Given a duplicate-free candidate pool in which every node has a
cost entry (the cost map is total on the pool), every group returned by
`sampled_possible_groups` is ascending-sorted, duplicate-free, drawn
from the pool, and has total cost at most the budget (in fact exactly
the budget); and the returned groups are pairwise distinct as sets: no
two of them are permutations of one another. -/
theorem sampled_groups_canonical_within_budget (shuffles : Nat → List Node)
    (costs : Node → ℚ) (budget : ℚ) (numSamples : Nat) (pool : List Node)
    (hpool : pool.Nodup) (hsh : ∀ i : Nat, (shuffles i).Perm pool) :
    (∀ gp ∈ sampled_possible_groups shuffles costs budget numSamples,
      gp.Pairwise (fun a b : Node => a ≤ b) ∧ gp.Nodup ∧ (∀ x ∈ gp, x ∈ pool) ∧
        (gp.map costs).sum ≤ budget) ∧
    (sampled_possible_groups shuffles costs budget numSamples).Pairwise
      (fun a b => ¬ a.Perm b) := by
  have hdraw : ∀ (i : Nat) (gp : List Node),
      greedyDraw costs budget (shuffles i) [] 0 = some gp →
      gp.Pairwise (fun a b : Node => a ≤ b) ∧ gp.Nodup ∧ (∀ x ∈ gp, x ∈ pool) ∧
        (gp.map costs).sum ≤ budget := by
    intro i gp heq
    have hnd : (([] : List Node) ++ shuffles i).Nodup := by
      simpa using (hsh i).symm.nodup hpool
    rcases greedyDraw_spec costs budget (shuffles i) [] 0 gp hnd (by simp) heq with
      ⟨hs, hn, hm, hb⟩
    refine ⟨hs, hn, ?_, le_of_eq hb⟩
    intro x hx
    rcases hm x hx with hx0 | hxsh
    · simp at hx0
    · exact (hsh i).subset hxsh
  rcases sampleLoop_acc_inv shuffles costs budget numSamples _ hdraw
      (numSamples * 100) 0 [] (by simp) List.nodup_nil with ⟨hall, hnd⟩
  refine ⟨hall, ?_⟩
  refine hnd.imp_of_mem ?_
  intro a b ha hb hne hperm
  rcases hall a ha with ⟨hsa, _, _, _⟩
  rcases hall b hb with ⟨hsb, _, _, _⟩
  exact hne (List.eq_of_perm_of_sorted hperm hsa hsb)

/-- Witness for C5: pool `[1, 2, 3]` with costs `1, 2, 3` and budget
`3`; the single requested sample is the canonical group `[1, 2]`. -/
theorem sampled_groups_canonical_within_budget_witness :
    ([1, 2] : List Node).Pairwise (fun a b : Node => a ≤ b) ∧ ([1, 2] : List Node).Nodup ∧
      (∀ x ∈ ([1, 2] : List Node), x ∈ ([1, 2, 3] : List Node)) ∧
      ((([1, 2] : List Node)).map (fun n : Node => (n : ℚ))).sum ≤ 3 := by
  have hmem : ([1, 2] : List Node) ∈
      sampled_possible_groups (fun _ => [2, 3, 1]) (fun n : Node => (n : ℚ)) 3 1 := by
    have hdraw : greedyDraw (fun n : Node => (n : ℚ)) 3 [2, 3, 1] [] 0 = some [1, 2] := by
      rw [greedyDraw]
      rw [if_pos (by norm_num), if_neg (by norm_num)]
      rw [greedyDraw]
      rw [if_neg (by norm_num), if_neg (by norm_num)]
      rw [greedyDraw]
      rw [if_pos (by norm_num), if_pos (by norm_num)]
      rfl
    show ([1, 2] : List Node) ∈ (sampleLoop (fun _ => [2, 3, 1])
      (fun n : Node => (n : ℚ)) 3 1 (1 * 100) 0 []).1
    rw [sampleLoop, if_pos (by simp), hdraw]
    rw [sampleLoop, if_neg (by simp)]
    simp
  exact (sampled_groups_canonical_within_budget (fun _ => [2, 3, 1])
    (fun n : Node => (n : ℚ)) 3 1 [1, 2, 3] (by decide)
    (fun _ => (by decide : ([2, 3, 1] : List Node).Perm [1, 2, 3]))).1 [1, 2] hmem

/-- C6.  The sampler always terminates (the loop is by construction
bounded by its attempt fuel): it performs at most `numSamples * 100`
attempts, collects at most `numSamples` groups, stops immediately once
`numSamples` groups are collected, and if it returns fewer than
`numSamples` groups then the whole attempt budget was exhausted — the
partial pool is returned as an ordinary value. -/
theorem sampler_attempt_cap (shuffles : Nat → List Node) (costs : Node → ℚ) (budget : ℚ)
    (numSamples : Nat) :
    (sampleLoop shuffles costs budget numSamples (numSamples * 100) 0 []).2 ≤
      numSamples * 100 ∧
    (sampled_possible_groups shuffles costs budget numSamples).length ≤ numSamples ∧
    ((sampled_possible_groups shuffles costs budget numSamples).length < numSamples →
      (sampleLoop shuffles costs budget numSamples (numSamples * 100) 0 []).2 =
        numSamples * 100) ∧
    (∀ (fuel attempts : Nat) (acc : List (List Node)), numSamples ≤ acc.length →
      sampleLoop shuffles costs budget numSamples fuel attempts acc = (acc, attempts)) := by
  rcases sampleLoop_count shuffles costs budget numSamples (numSamples * 100) 0 []
      (by simp) with ⟨ha, hb, hc⟩
  refine ⟨by simpa using ha, hb, fun hsmall => by simpa using hc hsmall, ?_⟩
  intro fuel attempts acc hfull
  cases fuel with
  | zero => rfl
  | succ n =>
    rw [sampleLoop, if_neg (by omega)]

/-- Witness for C6: a pool that never matches the budget exactly (single
node of cost `2`, budget `3`), with one requested sample: all `100`
attempts are spent and the empty partial result is returned. -/
theorem sampler_attempt_cap_witness :
    (sampleLoop (fun _ => [1]) (fun _ => (2 : ℚ)) 3 1 (1 * 100) 0 []).2 ≤ 1 * 100 ∧
    (sampleLoop (fun _ => [1]) (fun _ => (2 : ℚ)) 3 1 100 7 [[1]]) = ([[1]], 7) := by
  refine ⟨(sampler_attempt_cap (fun _ => [1]) (fun _ => (2 : ℚ)) 3 1).1, ?_⟩
  exact (sampler_attempt_cap (fun _ => [1]) (fun _ => (2 : ℚ)) 3 1).2.2.2 100 7 [[1]]
    (by simp)

/-! ### `main.py`: `compute_spreadness` (lines 83–107) -/

/-- One breadth-first expansion step: the unvisited neighbors of the
frontier, deduplicated in encounter order. -/
def nextFrontier (g : Graph) (frontier visited : List Node) : List Node :=
  (frontier.flatMap (fun u => g.neighbors u)).foldl
    (fun acc v => if v ∈ visited ∨ v ∈ acc then acc else acc ++ [v]) []

/-- Breadth-first layering from a frontier: pairs every reached node
with its distance.  Structural fuel bounds the number of layers. -/
def bfsLayers (g : Graph) : Nat → List Node → List Node → Nat → List (Node × Nat)
  | 0, _, _, _ => []
  | fuel + 1, frontier, visited, d =>
    if frontier.isEmpty then []
    else
      frontier.map (fun u => (u, d)) ++
        bfsLayers g fuel (nextFrontier g frontier visited)
          (visited ++ nextFrontier g frontier visited) (d + 1)

/-- Model of `nx.shortest_path_length(graph, u, v)`: breadth-first
distance from `u` to `v`, `none` when `v` is unreachable.  The fuel
`|nodes| + 1` layers is enough to exhaust any component. -/
def shortestPathLen (g : Graph) (u v : Node) : Option Nat :=
  (bfsLayers g (g.nodes.length + 1) [u] [u] 0).lookup v

/-- Model of `nx.has_path(graph, u, v)`. -/
def hasPath (g : Graph) (u v : Node) : Bool :=
  (shortestPathLen g u v).isSome

/-- The ordered pairs `(group[i], group[j])`, `i < j`, visited by the
double loop of `compute_spreadness`. -/
def listPairs : List Node → List (Node × Node)
  | [] => []
  | x :: xs => xs.map (fun y => (x, y)) ++ listPairs xs

/-- `compute_spreadness(graph, group)` (main.py lines 83–107): restrict
the group to graph nodes; fewer than 2 left gives `0`; otherwise sum the
shortest-path lengths over the connected pairs; a zero count of
connected pairs gives `float('inf')` (modelled as `none`), otherwise the
mean `total / count` (as `some`). -/
def compute_spreadness (g : Graph) (group : List Node) : Option ℚ :=
  let grp := group.filter (fun n => decide (n ∈ g.nodes))
  if grp.length < 2 then some 0
  else
    let tc := (listPairs grp).foldl
      (fun (tc : ℚ × Nat) p =>
        if hasPath g p.1 p.2 then
          (tc.1 + ((shortestPathLen g p.1 p.2).getD 0 : ℚ), tc.2 + 1)
        else tc)
      ((0 : ℚ), (0 : Nat))
    if tc.2 = 0 then none else some (tc.1 / (tc.2 : ℚ))

theorem spreadFold_eq (g : Graph) :
    ∀ (ps : List (Node × Node)) (t : ℚ) (c : Nat),
      ps.foldl
        (fun (tc : ℚ × Nat) p =>
          if hasPath g p.1 p.2 then
            (tc.1 + ((shortestPathLen g p.1 p.2).getD 0 : ℚ), tc.2 + 1)
          else tc)
        (t, c) =
      (t + ((ps.filter (fun p => hasPath g p.1 p.2)).map
          (fun p => ((shortestPathLen g p.1 p.2).getD 0 : ℚ))).sum,
       c + (ps.filter (fun p => hasPath g p.1 p.2)).length) := by
  intro ps
  induction ps with
  | nil => intro t c; simp
  | cons p rest ih =>
    intro t c
    rw [List.foldl_cons]
    by_cases hp : hasPath g p.1 p.2
    · rw [if_pos hp, ih, List.filter_cons_of_pos (by simpa using hp)]
      rw [List.map_cons, List.sum_cons, List.length_cons, Prod.mk.injEq]
      exact ⟨by ring, by omega⟩
    · rw [if_neg hp, ih, List.filter_cons_of_neg (by simpa using hp)]

/-- The group restricted to nodes present in the graph (the statement
side of the claim's "filters group to nodes present in the graph"). -/
def inGraphFilter (g : Graph) (group : List Node) : List Node :=
  group.filter (fun n => decide (n ∈ g.nodes))

/-- The connected pairs of the (graph-restricted) group, in double-loop
order. -/
def connectedPairs (g : Graph) (group : List Node) : List (Node × Node) :=
  (listPairs (inGraphFilter g group)).filter (fun p => hasPath g p.1 p.2)

/-- C7.  `compute_spreadness` first restricts the group to graph nodes;
with fewer than 2 remaining it returns `0`; with no connected pair among
the remaining nodes it returns `+∞` (`none`); otherwise it returns the
mean shortest-path distance over exactly the connected pairs —
unconnected pairs appear in neither the numerator nor the
denominator. -/
theorem compute_spreadness_cases (g : Graph) (group : List Node) :
    ((inGraphFilter g group).length < 2 → compute_spreadness g group = some 0) ∧
    (2 ≤ (inGraphFilter g group).length →
      (connectedPairs g group = [] → compute_spreadness g group = none) ∧
      (connectedPairs g group ≠ [] →
        compute_spreadness g group =
          some (((connectedPairs g group).map
              (fun p => ((shortestPathLen g p.1 p.2).getD 0 : ℚ))).sum /
            ((connectedPairs g group).length : ℚ)))) := by
  rw [inGraphFilter, connectedPairs, inGraphFilter]
  constructor
  · intro hlt
    rw [compute_spreadness]
    simp only [if_pos hlt]
  · intro hge
    have hnot : ¬ (group.filter (fun n => decide (n ∈ g.nodes))).length < 2 := by omega
    constructor
    · intro hnil
      rw [compute_spreadness]
      simp only [if_neg hnot]
      rw [spreadFold_eq, hnil]
      simp
    · intro hne
      rw [compute_spreadness]
      simp only [if_neg hnot]
      rw [spreadFold_eq]
      have hlen : ((listPairs (group.filter (fun n => decide (n ∈ g.nodes)))).filter
          (fun p => hasPath g p.1 p.2)).length ≠ 0 := by
        simpa [List.length_eq_zero] using hne
      rw [if_neg (by simpa using hlen)]
      simp

/-- A graph with one edge `1 – 2` and an isolated node `3`. -/
def G7 : Graph := ⟨[3], [(1, 2)]⟩

/-- Witness for C7: on `G7` with group `[1, 2, 3, 9]` (node `9` is not in
the graph, node `3` is disconnected), only the pair `(1, 2)` is
connected, so the score is `1/1 = 1`. -/
theorem compute_spreadness_cases_witness :
    compute_spreadness G7 [1, 2, 3, 9] = some 1 := by
  have h := ((compute_spreadness_cases G7 [1, 2, 3, 9]).2 (by decide)).2 (by decide)
  rw [h]
  have hcps : connectedPairs G7 [1, 2, 3, 9] = [(1, 2)] := by decide
  rw [hcps]
  have hlen : shortestPathLen G7 1 2 = some 1 := by decide
  rw [List.map_cons, List.map_nil, hlen]
  norm_num

/-! ### `main.py`: Monte-Carlo averaging and greedy selection
(lines 156–173) -/

/-- Module constant `P_BASE = 0.2` (imported from
Praducci_simulation.py, line 13). -/
def P_BASE : ℚ := 1/5

/-- Module constant `ROUNDS = 6` (imported from Praducci_simulation.py,
line 12). -/
def ROUNDS : Nat := 6

/-- `average_num_tests_simulates(graph, group, haters, p_base, rounds,
num_tests)` (main.py lines 156–160): run `num_tests` simulations and
divide the accumulated total by `num_tests`.  `trialDraws i` is the
fresh slice of the random stream consumed by trial `i`. -/
def average_num_tests_simulates (g? : Option Graph) (group : List Node)
    (h? : Option HaterMap) (pBase : ℚ) (rounds numTests : Nat)
    (trialDraws : Nat → Nat → Node → ℚ) : ℚ :=
  ((List.range numTests).foldl
    (fun total i =>
      total + (simulate_influence g? (some group) h? pBase rounds (trialDraws i) : ℚ))
    0) / (numTests : ℚ)

/-- The `for group in possible_groups` loop of `greedy_based_simulate`
(main.py lines 167–172).  NOTE: faithful to the source, each group's
average is computed with the MODULE CONSTANTS `P_BASE` and `ROUNDS`
(line 168), not with the `p_base`/`rounds` arguments of
`greedy_based_simulate`.  `loopDraws i` is the random-stream slice
consumed while evaluating the `i`-th group of the loop. -/
def greedyLoop (g? : Option Graph) (h? : Option HaterMap) (numTests : Nat)
    (loopDraws : Nat → Nat → Nat → Node → ℚ) :
    List (List Node) → Nat → List Node → ℚ → List Node
  | [], _, s0, _ => s0
  | group :: rest, i, s0, avgMax =>
    if avgMax < average_num_tests_simulates g? group h? P_BASE ROUNDS numTests (loopDraws i)
    then
      greedyLoop g? h? numTests loopDraws rest (i + 1) group
        (average_num_tests_simulates g? group h? P_BASE ROUNDS numTests (loopDraws i))
    else greedyLoop g? h? numTests loopDraws rest (i + 1) s0 avgMax

/-- `greedy_based_simulate(possible_groups, graph, haters, p_base,
rounds, num_tests)` (main.py lines 163–173): the baseline
`average_max` for `possible_groups[0]` uses the `p_base` and `rounds`
ARGUMENTS (line 166), the loop then re-evaluates every group (the first
included) with the module constants (line 168).  `none` models the
`IndexError` raised by `possible_groups[0]` on an empty list. -/
def greedy_based_simulate :
    List (List Node) → Option Graph → Option HaterMap → ℚ → Nat → Nat →
      (Nat → Nat → Node → ℚ) → (Nat → Nat → Nat → Node → ℚ) → Option (List Node)
  | [], _, _, _, _, _, _, _ => none
  | g0 :: rest, g?, h?, pBase, rounds, numTests, firstDraws, loopDraws =>
    some (greedyLoop g? h? numTests loopDraws (g0 :: rest) 0 g0
      (average_num_tests_simulates g? g0 h? pBase rounds numTests firstDraws))

/-! Concrete evaluation showing the loop ignores the `p_base`/`rounds`
arguments.  `G4` is the single edge `1 – 2`; candidate groups are `[1]`
(inside the graph) and `[8, 9]` (two seeds outside the graph); all draws
are `0`, so under the module constants every open infection attempt
succeeds. -/

/-- Single edge `1 – 2`. -/
def G4 : Graph := ⟨[], [(1, 2)]⟩

/-- Zero draws for every trial, round and node (baseline call). -/
def tD0 : Nat → Nat → Node → ℚ := fun _ _ _ => 0

/-- Zero draws for every loop group, trial, round and node. -/
def lD0 : Nat → Nat → Nat → Node → ℚ := fun _ _ _ _ => 0

theorem g4_nodes : G4.nodes = [1, 2] := by decide

theorem newly_g4_full (p : ℚ) (d : Node → ℚ) :
    newlyInfluenced G4 [] p [1, 2] d = [] := by
  rw [newlyInfluenced, g4_nodes]
  apply List.filter_eq_nil_iff.2
  intro c hc
  fin_cases hc <;> simp

theorem newly_g4_outside_seeds (p : ℚ) (d : Node → ℚ) :
    newlyInfluenced G4 [] p [8, 9] d = [] := by
  rw [newlyInfluenced, g4_nodes]
  apply List.filter_eq_nil_iff.2
  intro c hc
  have h1 : influencingNeighbors G4 [] [8, 9] 1 = [] := by decide
  have h2 : influencingNeighbors G4 [] [8, 9] 2 = [] := by decide
  fin_cases hc <;> simp [h1, h2]

theorem influencedAfter_g4_one :
    influencedAfter G4 [] P_BASE [1] (lD0 0 0) 1 = [1, 2] := by
  have h0 : influencedAfter G4 [] P_BASE [1] (lD0 0 0) 0 = [1] := by decide
  show stepRound G4 [] P_BASE (influencedAfter G4 [] P_BASE [1] (lD0 0 0) 0)
    (lD0 0 0 0) = [1, 2]
  rw [h0]
  have hinfl : influencingNeighbors G4 [] [1] 2 = [1] := by decide
  have hprob : (0 : ℚ) < probInfected G4 [] [1] 2 P_BASE := by
    rw [probInfected, probNotInfectedByAny, hinfl]
    have hanti : antiInfluenceProduct G4 [] 2 = 1 := rfl
    rw [List.foldl_cons, List.foldl_nil, hanti]
    rw [P_BASE]
    norm_num
  rw [stepRound, newlyInfluenced, g4_nodes]
  simp only [List.filter_cons, List.filter_nil]
  rw [if_neg (by simp), if_pos (by simp [hinfl, isHater, lD0, hprob])]
  rfl

theorem influencedAfter_g4_succ (k : Nat) :
    influencedAfter G4 [] P_BASE [1] (lD0 0 0) (k + 1) = [1, 2] := by
  induction k with
  | zero => exact influencedAfter_g4_one
  | succ n ih =>
    show stepRound G4 [] P_BASE (influencedAfter G4 [] P_BASE [1] (lD0 0 0) (n + 1))
      (lD0 0 0 (n + 1)) = [1, 2]
    rw [ih, stepRound, newly_g4_full, List.append_nil]

theorem influencedAfter_g4_outside (r : Nat) :
    influencedAfter G4 [] P_BASE [8, 9] (lD0 1 0) r = [8, 9] := by
  induction r with
  | zero => decide
  | succ n ih =>
    show stepRound G4 [] P_BASE (influencedAfter G4 [] P_BASE [8, 9] (lD0 1 0) n)
      (lD0 1 0 n) = [8, 9]
    rw [ih, stepRound, newly_g4_outside_seeds, List.append_nil]

theorem avg_base_g0 : average_num_tests_simulates (some G4) [1] (some []) 0 0 1 tD0 = 1 := by
  have hsim : simulate_influence (some G4) (some [1]) (some []) 0 0 (tD0 0) = 1 := by decide
  rw [average_num_tests_simulates, (by decide : List.range 1 = [0]), List.foldl_cons, List.foldl_nil, hsim]
  norm_num

theorem avg_base_g1 :
    average_num_tests_simulates (some G4) [8, 9] (some []) 0 0 1 tD0 = 2 := by
  have hsim : simulate_influence (some G4) (some [8, 9]) (some []) 0 0 (tD0 0) = 2 := by
    decide
  rw [average_num_tests_simulates, (by decide : List.range 1 = [0]), List.foldl_cons, List.foldl_nil, hsim]
  norm_num

theorem avg_loop_g0 :
    average_num_tests_simulates (some G4) [1] (some []) P_BASE ROUNDS 1 (lD0 0) = 2 := by
  have hsim : simulate_influence (some G4) (some [1]) (some []) P_BASE ROUNDS (lD0 0 0) = 2 := by
    show (influencedAfter G4 [] P_BASE [1] (lD0 0 0) ROUNDS).length = 2
    have h6 : ROUNDS = 5 + 1 := rfl
    rw [h6, influencedAfter_g4_succ]
    rfl
  rw [average_num_tests_simulates, (by decide : List.range 1 = [0]), List.foldl_cons, List.foldl_nil, hsim]
  norm_num

theorem avg_loop_g1 :
    average_num_tests_simulates (some G4) [8, 9] (some []) P_BASE ROUNDS 1 (lD0 1) = 2 := by
  have hsim : simulate_influence (some G4) (some [8, 9]) (some []) P_BASE ROUNDS (lD0 1 0) = 2 := by
    show (influencedAfter G4 [] P_BASE [8, 9] (lD0 1 0) ROUNDS).length = 2
    rw [influencedAfter_g4_outside]
    rfl
  rw [average_num_tests_simulates, (by decide : List.range 1 = [0]), List.foldl_cons, List.foldl_nil, hsim]
  norm_num

/-- C4 (code bug).  `greedy_based_simulate` called with
`p_base = 0, rounds = 0, num_tests = 1` on the groups `[[1], [8, 9]]`
returns `[1]`, although under the `p_base`/`rounds` arguments it was
given the estimates are `1` for `[1]` and `2` for `[8, 9]`, so the claim
requires `[8, 9]`: the selection loop evaluates the groups with the
module constants `P_BASE = 0.2`, `ROUNDS = 6` instead of the
arguments. -/
theorem greedy_selects_by_global_constants :
    greedy_based_simulate [[1], [8, 9]] (some G4) (some []) 0 0 1 tD0 lD0 = some [1] ∧
    average_num_tests_simulates (some G4) [1] (some []) 0 0 1 tD0 = 1 ∧
    average_num_tests_simulates (some G4) [8, 9] (some []) 0 0 1 tD0 = 2 := by
  refine ⟨?_, avg_base_g0, avg_base_g1⟩
  show some (greedyLoop (some G4) (some []) 1 lD0 [[1], [8, 9]] 0 [1]
    (average_num_tests_simulates (some G4) [1] (some []) 0 0 1 tD0)) = some [1]
  rw [avg_base_g0]
  rw [greedyLoop, avg_loop_g0, if_pos (by norm_num)]
  rw [greedyLoop, avg_loop_g1, if_neg (by norm_num)]
  rw [greedyLoop]

end Praducci
